import Mathlib

/-!
Verification of the malachite QA CSV post-processing pipeline
(`qa/terraform/scripts/average_runs.py` and
`qa/terraform/scripts/format_csv_file.py`).

Tables are modelled as lists of rows; a row of an aggregator input is a
triple `(node_name : String, timestamp : ℚ, value : ℚ)` (pandas reads the
headerless CSV into these three columns).  Rationals stand for the numeric
cells; an integer-typed cell is a rational with denominator 1.

The file has two parts: first the definitions embedding the two scripts,
then the theorems about them.
-/

namespace Malachite

/-! ## Definitions: `average_runs.py` -/

/-- A 3-column table as read by `pd.read_csv(f, header=None)` in
`average_runs.py`: column 0 node name, column 1 timestamp, column 2 value. -/
abbrev Table := List (String × ℚ × ℚ)

/-- Columns 0 and 1 of a table (`df.iloc[:, :2]`). -/
def keyCols (t : Table) : List (String × ℚ) :=
  t.map (fun r => (r.1, r.2.1))

/-- Column 2 of a table (`df.iloc[:, 2]`). -/
def valueCol (t : Table) : List ℚ :=
  t.map (fun r => r.2.2)

/-- Elementwise sum of two value columns (pandas `Series + Series` on equal
`RangeIndex`es adds positionally). -/
def addSeries (xs ys : List ℚ) : List ℚ :=
  List.zipWith (fun a b => a + b) xs ys

/-- Python `sum(values)` over a list of pandas Series: `0 + s₁ + s₂ + ⋯`,
where adding the scalar `0` to the first series leaves it unchanged. -/
def sumCols : List (List ℚ) → List ℚ
  | [] => []
  | c :: cs => cs.foldl addSeries c

/-- Executable floor of a rational (`⌊q⌋`; see `ratFloor_eq_floor`). -/
def ratFloor (q : ℚ) : ℤ := q.num / q.den

/-- numpy / pandas `Series.round()`: round half to even (banker's rounding),
the IEEE-754 `rint` behaviour used by `np.round`. -/
def roundHalfEven (q : ℚ) : ℤ :=
  if q - ratFloor q < 1/2 then ratFloor q
  else if 1/2 < q - ratFloor q then ratFloor q + 1
  else if ratFloor q % 2 = 0 then ratFloor q else ratFloor q + 1

/-- The first 2-based file index `i` whose key columns differ from `base`,
mirroring `for i, df in enumerate(dfs[1:], start=2): if not
base.equals(df.iloc[:, :2]): raise`.  (`DataFrame.equals` is `False` whenever
the shapes differ, so lists of different lengths compare unequal here too.) -/
def firstMismatch (base : List (String × ℚ)) : List Table → ℕ → Option ℕ
  | [], _ => none
  | d :: ds, i => if keyCols d = base then firstMismatch base ds (i + 1) else some i

/-- `average_csv_files` from `average_runs.py`, at the table level.
`Except.error i` models the raised `ValueError` naming file index `i`
(in which case nothing is written to the output file); `Except.ok t`
models writing the table `t`.  With one input the file is copied through
unchanged.  With `N > 1` inputs the key columns of every further table must
equal those of table 1; then column 2 becomes
`(sum(values) / len(values)).round().astype(int)` — the `.astype(int)` cast
is the identity on the already-integral rounded values, so the value cell is
the integer `roundHalfEven` of the mean.  The empty input list cannot occur
(argparse `nargs="+"` requires at least one file); it is given a dummy error. -/
def average_csv_files (dfs : List Table) : Except ℕ Table :=
  match dfs with
  | [] => .error 0
  | [df] => .ok df
  | df0 :: rest =>
    match firstMismatch (keyCols df0) rest 2 with
    | some i => .error i
    | none =>
      let values := (df0 :: rest).map valueCol
      let n : ℚ := ((df0 :: rest).length : ℚ)
      let avg := (sumCols values).map (fun s => s / n)
      .ok (List.zipWith (fun (r : String × ℚ × ℚ) v =>
            (r.1, r.2.1, ((roundHalfEven v : ℤ) : ℚ))) df0 avg)

/-- The row constructor used for the aggregator output: keys from the first
table's row, value the rounded average cast back to a numeric cell. -/
def outRow (r : String × ℚ × ℚ) (v : ℚ) : String × ℚ × ℚ :=
  (r.1, r.2.1, ((roundHalfEven v : ℤ) : ℚ))

/-- First table of the concrete witness instance for C4
(the spec's rounding-law test `100, 110, 90`). -/
def wTable : Table := [("Node1", 0, 100)]

/-- Remaining tables of the concrete witness instance for C4. -/
def wRest : List Table := [[("Node1", 0, 110)], [("Node1", 0, 90)]]

/-! ## Definitions: `format_csv_file.py` -/

/-- A raw 3-column table as read by `pd.read_csv(input_file, header=None)` in
`format_csv_file.py`: node name, timestamp, and a metric value that may be
missing (`NaN` in pandas, `none` here). -/
abbrev RawTable := List (String × ℚ × Option ℚ)

/-- Python `name.split('-')[0]`: the part of the identifier before its first
hyphen, or the whole identifier when it has none (the characters of the
name up to the first `'-'`). -/
def hyphenHead (name : String) : String :=
  (name.data.takeWhile (fun c => c ≠ '-')).asString

/-- `df['node_name'].unique()`: the distinct elements in first-occurrence
order. -/
def firstOccur : List String → List String
  | [] => []
  | x :: xs => x :: firstOccur (xs.filter (fun y => y ≠ x))
termination_by l => l.length
decreasing_by
  exact Nat.lt_succ_of_le (List.length_filter_le _ _)

/-- The canonical label the mapping of `normalize_node_names` assigns to
`name`: `f"Node{idx + 1} ({name.split('-')[0]})"`, where `idx` is `name`'s
position in the first-occurrence enumeration `uniq` of the raw names. -/
def nodeLabel (uniq : List String) (name : String) : String :=
  "Node" ++ Nat.repr (uniq.indexOf name + 1) ++ " (" ++ hyphenHead name ++ ")"

/-- `normalize_node_names` from `format_csv_file.py` applied to column 0:
build the mapping over `unique()` and map it over the column. -/
def normalize_node_names (col : List String) : List String :=
  col.map (nodeLabel (firstOccur col))

/-- `df['timestamp'].min()`: the minimum of the timestamp column.  The empty
table (where pandas would give `NaN`) is given the dummy value `0`; every
claim about timestamps concerns tables with at least one row. -/
def minTs (df : RawTable) : ℚ :=
  match df with
  | [] => 0
  | r :: rs => (rs.map (fun x => x.2.1)).foldl min r.2.1

/-- `.astype(int)` on a float value: C-style truncation toward zero. -/
def truncInt (q : ℚ) : ℤ := q.num.tdiv q.den

/-- `process_throughput` from `format_csv_file.py`:
canonicalize node names (column 0), rebase timestamps to minutes from the
run start (column 1), drop the rows with a missing value, and truncate the
value column to integers. -/
def process_throughput (df : RawTable) : List (String × ℚ × ℤ) :=
  let uniq := firstOccur (df.map (fun r => r.1))
  let m := minTs df
  let renamed := df.map (fun r => (nodeLabel uniq r.1, (r.2.1 - m) / 60, r.2.2))
  let cleaned := renamed.filter (fun r => r.2.2.isSome)
  cleaned.map (fun r => (r.1, r.2.1, truncInt (r.2.2.getD 0)))

/-- `process_block_time` from `format_csv_file.py`: as `process_throughput`,
but the value (a latency in seconds) is multiplied by 1000 (milliseconds)
before the integer truncation. -/
def process_block_time (df : RawTable) : List (String × ℚ × ℤ) :=
  let uniq := firstOccur (df.map (fun r => r.1))
  let m := minTs df
  let renamed := df.map (fun r => (nodeLabel uniq r.1, (r.2.1 - m) / 60, r.2.2))
  let cleaned := renamed.filter (fun r => r.2.2.isSome)
  cleaned.map (fun r => (r.1, r.2.1, truncInt (r.2.2.getD 0 * 1000)))

/-- Fuel-free decimal digit list of a natural number; proved equal to the
character data of `Nat.repr` (which core implements with fuel). -/
def decChars (n : ℕ) : List Char :=
  if n < 10 then [Nat.digitChar n]
  else decChars (n / 10) ++ [Nat.digitChar (n % 10)]
termination_by n
decreasing_by
  exact Nat.div_lt_self (by omega) (by omega)

/-! ## Theorems -/

theorem ratFloor_eq_floor (q : ℚ) : ratFloor q = ⌊q⌋ := Rat.floor_def.symm

example : average_csv_files [[("Node1", 0, 100)], [("Node1", 0, 101)]] =
    .ok [("Node1", 0, 100)] := by
  simp only [average_csv_files, firstMismatch, keyCols, valueCol, sumCols, addSeries,
    roundHalfEven, ratFloor_eq_floor, List.map, List.foldl, List.zipWith, List.length]
  norm_num

example : average_csv_files
    [[("Node1", 0, 100), ("Node2", 0, 200)],
     [("Node1", 0, 110), ("Node2", 0, 210)],
     [("Node1", 0, 90), ("Node2", 0, 190)]] =
    .ok [("Node1", 0, 100), ("Node2", 0, 200)] := by
  simp only [average_csv_files, firstMismatch, keyCols, valueCol, sumCols, addSeries,
    roundHalfEven, ratFloor_eq_floor, List.map, List.foldl, List.zipWith, List.length]
  norm_num

example : average_csv_files [[("Node1", 0, 100)], [("Node2", 0, 101)]] =
    .error 2 := by
  simp [average_csv_files, firstMismatch, keyCols]

/-! ### Lemmas about `firstMismatch` -/

theorem firstMismatch_eq_none (base : List (String × ℚ)) (rest : List Table) (i : ℕ)
    (h : ∀ t ∈ rest, keyCols t = base) : firstMismatch base rest i = none := by
  induction rest generalizing i with
  | nil => rfl
  | cons d ds ih =>
    have hd : keyCols d = base := h d (List.mem_cons_self d ds)
    simp only [firstMismatch, hd, if_true]
    exact ih _ fun t ht => h t (List.mem_cons_of_mem d ht)

theorem firstMismatch_eq_some (base : List (String × ℚ)) (rest : List Table) (i k : ℕ)
    (hk : k < rest.length) (hbad : keyCols (rest.getD k []) ≠ base)
    (hgood : ∀ m, m < k → keyCols (rest.getD m []) = base) :
    firstMismatch base rest i = some (i + k) := by
  induction rest generalizing i k with
  | nil => simp at hk
  | cons d ds ih =>
    cases k with
    | zero =>
      simp only [List.getD_cons_zero] at hbad
      simp [firstMismatch, hbad]
    | succ k =>
      have hd : keyCols d = base := by
        have := hgood 0 (Nat.succ_pos k)
        simpa using this
      simp only [firstMismatch, hd, if_true]
      have := ih (i + 1) k (by simpa using hk) (by simpa using hbad)
        (fun m hm => by simpa using hgood (m + 1) (Nat.succ_lt_succ hm))
      rw [this]
      congr 1
      omega

/-! ### Lemmas about `roundHalfEven` -/

theorem roundHalfEven_nearest (q : ℚ) : |((roundHalfEven q : ℤ) : ℚ) - q| ≤ 1/2 := by
  have h0 : ((⌊q⌋ : ℤ) : ℚ) ≤ q := Int.floor_le q
  have h1 : q < ((⌊q⌋ : ℤ) : ℚ) + 1 := Int.lt_floor_add_one q
  unfold roundHalfEven
  rw [ratFloor_eq_floor]
  split
  · rw [abs_sub_comm, abs_of_nonneg (by linarith)]
    linarith
  · split
    · push_cast
      rw [abs_of_nonneg (by linarith)]
      linarith
    · split
      · rw [abs_sub_comm, abs_of_nonneg (by linarith)]
        linarith
      · push_cast
        rw [abs_of_nonneg (by linarith)]
        linarith

theorem roundHalfEven_half_tie (k : ℤ) :
    roundHalfEven ((k : ℚ) + 1/2) = if k % 2 = 0 then k else k + 1 := by
  have hfl : ⌊(k : ℚ) + 1/2⌋ = k := by
    rw [show ((k : ℚ) + 1/2) = (1/2 : ℚ) + (k : ℤ) by ring, Int.floor_add_int]
    norm_num
  unfold roundHalfEven
  rw [ratFloor_eq_floor, hfl]
  have : ((k : ℚ) + 1/2) - (k : ℚ) = 1/2 := by ring
  rw [this]
  norm_num

/-! ### Pointwise description of `sumCols` -/

theorem length_addSeries (xs ys : List ℚ) :
    (addSeries xs ys).length = min xs.length ys.length := by
  simp [addSeries]

theorem addSeries_getD (xs ys : List ℚ) (p : ℕ) (hx : p < xs.length) (hy : p < ys.length) :
    (addSeries xs ys).getD p 0 = xs.getD p 0 + ys.getD p 0 := by
  simp [addSeries, List.getD_eq_getElem?_getD, List.getElem?_zipWith,
    List.getElem?_eq_getElem hx, List.getElem?_eq_getElem hy]

theorem foldl_addSeries_length (cs : List (List ℚ)) (acc : List ℚ) (L : ℕ)
    (hcs : ∀ c ∈ cs, c.length = L) (hacc : acc.length = L) :
    (cs.foldl addSeries acc).length = L := by
  induction cs generalizing acc with
  | nil => simpa using hacc
  | cons c cs ih =>
    simp only [List.foldl_cons]
    refine ih _ (fun x hx => hcs x (List.mem_cons_of_mem c hx)) ?_
    rw [length_addSeries, hacc, hcs c (List.mem_cons_self c cs)]
    exact min_self L

theorem foldl_addSeries_getD (cs : List (List ℚ)) (acc : List ℚ) (L p : ℕ)
    (hcs : ∀ c ∈ cs, c.length = L) (hacc : acc.length = L) (hp : p < L) :
    (cs.foldl addSeries acc).getD p 0 =
      acc.getD p 0 + (cs.map (fun c => c.getD p 0)).sum := by
  induction cs generalizing acc with
  | nil => simp
  | cons c cs ih =>
    have hc : c.length = L := hcs c (List.mem_cons_self c cs)
    have hlen : (addSeries acc c).length = L := by
      rw [length_addSeries, hacc, hc]; exact min_self L
    simp only [List.foldl_cons, List.map_cons, List.sum_cons]
    rw [ih _ (fun x hx => hcs x (List.mem_cons_of_mem c hx)) hlen,
      addSeries_getD acc c p (hacc ▸ hp) (hc ▸ hp)]
    ring

theorem sumCols_length (cols : List (List ℚ)) (L : ℕ)
    (h : ∀ c ∈ cols, c.length = L) (hne : cols ≠ []) : (sumCols cols).length = L := by
  cases cols with
  | nil => exact absurd rfl hne
  | cons c cs =>
    exact foldl_addSeries_length cs c L (fun x hx => h x (List.mem_cons_of_mem c hx))
      (h c (List.mem_cons_self c cs))

theorem sumCols_getD (cols : List (List ℚ)) (L p : ℕ)
    (h : ∀ c ∈ cols, c.length = L) (hne : cols ≠ []) (hp : p < L) :
    (sumCols cols).getD p 0 = (cols.map (fun c => c.getD p 0)).sum := by
  cases cols with
  | nil => exact absurd rfl hne
  | cons c cs =>
    simp only [sumCols, List.map_cons, List.sum_cons]
    exact foldl_addSeries_getD cs c L p (fun x hx => h x (List.mem_cons_of_mem c hx))
      (h c (List.mem_cons_self c cs)) hp

/-! ### Closed forms for `average_csv_files` -/

theorem average_csv_files_cons (df0 : Table) (rest : List Table) (hne : rest ≠ []) :
    average_csv_files (df0 :: rest) =
      match firstMismatch (keyCols df0) rest 2 with
      | some i => .error i
      | none =>
        .ok (List.zipWith outRow df0
          ((sumCols ((df0 :: rest).map valueCol)).map
            (fun s => s / (((df0 :: rest).length : ℕ) : ℚ)))) := by
  cases rest with
  | nil => exact absurd rfl hne
  | cons r rs => rfl

theorem average_error_of_first_bad (d : Table) (rest : List Table) (k : ℕ)
    (hk : k < rest.length) (hbad : keyCols (rest.getD k []) ≠ keyCols d)
    (hgood : ∀ m, m < k → keyCols (rest.getD m []) = keyCols d) :
    average_csv_files (d :: rest) = .error (k + 2) := by
  have hne : rest ≠ [] := by
    intro h; rw [h] at hk; simp at hk
  rw [average_csv_files_cons d rest hne,
    firstMismatch_eq_some (keyCols d) rest 2 k hk hbad hgood]
  simp [Nat.add_comm]

theorem average_ok_of_keys (df0 : Table) (rest : List Table) (hne : rest ≠ [])
    (hkeys : ∀ t ∈ rest, keyCols t = keyCols df0) :
    average_csv_files (df0 :: rest) =
      .ok (List.zipWith outRow df0
        ((sumCols ((df0 :: rest).map valueCol)).map
          (fun s => s / (((df0 :: rest).length : ℕ) : ℚ)))) := by
  rw [average_csv_files_cons df0 rest hne, firstMismatch_eq_none (keyCols df0) rest 2 hkeys]

/-- **C1.** With `N > 1` input tables, if some later table's key columns
(columns 0 and 1, row for row) differ from table 1's, and `k` (0-based into
the tail, so file index `k + 2`) is the first such position, then
`average_csv_files` raises the `ValueError` naming file index `k + 2`
(modelled as `Except.error (k + 2)`), and consequently no output table is
produced: the result is not `Except.ok` of anything. -/
theorem claim1_schema_mismatch_first_index (d : Table) (rest : List Table) (k : ℕ)
    (hk : k < rest.length) (hbad : keyCols (rest.getD k []) ≠ keyCols d)
    (hgood : ∀ m, m < k → keyCols (rest.getD m []) = keyCols d) :
    average_csv_files (d :: rest) = .error (k + 2) ∧
      ∀ out : Table, average_csv_files (d :: rest) ≠ .ok out := by
  have h := average_error_of_first_bad d rest k hk hbad hgood
  exact ⟨h, fun out hout => by rw [h] at hout; exact Except.noConfusion hout⟩

/-- Witness for C1: the spec's own test case — two tables agreeing on
columns 0–1 except one differing cell must fail naming file 2. -/
theorem claim1_schema_mismatch_first_index_witness :
    average_csv_files [[("Node1", (0 : ℚ), (100 : ℚ))], [("Node2", 0, 101)]] = .error 2 ∧
      ∀ out : Table, average_csv_files [[("Node1", (0 : ℚ), (100 : ℚ))], [("Node2", 0, 101)]] ≠ .ok out := by
  have h := claim1_schema_mismatch_first_index [("Node1", (0 : ℚ), (100 : ℚ))]
    [[("Node2", 0, 101)]] 0 (by simp) (by simp [keyCols]) (by omega)
  simpa using h

/-- **C3.** The aggregator invoked with a single input table writes out
exactly its input: same cell values, same row order, no rounding applied
(the result is the input table itself). -/
theorem claim3_single_file_pass_through (df : Table) :
    average_csv_files [df] = .ok df := rfl

/-! ### Key/value columns of the aggregator output -/

theorem length_keyCols (t : Table) : (keyCols t).length = t.length := by
  simp [keyCols]

theorem length_valueCol (t : Table) : (valueCol t).length = t.length := by
  simp [valueCol]

theorem keyCols_zipWith_outRow (xs : Table) (vs : List ℚ) (h : xs.length ≤ vs.length) :
    keyCols (List.zipWith outRow xs vs) = keyCols xs := by
  induction xs generalizing vs with
  | nil => simp [keyCols]
  | cons x xs ih =>
    cases vs with
    | nil => simp at h
    | cons v vs =>
      simp only [List.zipWith_cons_cons, keyCols, List.map_cons] at *
      exact congrArg _ (ih vs (Nat.le_of_succ_le_succ h))

theorem valueCol_zipWith_outRow (xs : Table) (vs : List ℚ) (h : vs.length ≤ xs.length) :
    valueCol (List.zipWith outRow xs vs) =
      vs.map (fun v => ((roundHalfEven v : ℤ) : ℚ)) := by
  induction xs generalizing vs with
  | nil =>
    cases vs with
    | nil => simp [valueCol]
    | cons v vs => simp at h
  | cons x xs ih =>
    cases vs with
    | nil => simp [valueCol]
    | cons v vs =>
      simp only [List.zipWith_cons_cons, valueCol, List.map_cons] at *
      exact congrArg _ (ih vs (Nat.le_of_succ_le_succ h))

theorem getD_map_of_lt {α β : Type} (f : α → β) (l : List α) (p : ℕ) (hp : p < l.length)
    (d : α) (d' : β) : (l.map f).getD p d' = f (l.getD p d) := by
  rw [List.getD_eq_getElem l d hp, List.getD_eq_getElem _ d' (by simpa using hp)]
  simp

/-- **C4.** With `N > 1` tables all of whose key columns equal table 1's, the
aggregator succeeds; the output has table 1's key columns and table 1's row
count, and the value cell at each row position `p` is the arithmetic mean of
the value cells at position `p` across all `N` inputs, rounded (half to
even, see C2) and cast to an integer cell; the rounding is to a nearest
integer: it moves the mean by at most `1/2`. -/
theorem claim4_mean_rounded_output (df0 : Table) (rest : List Table) (hne : rest ≠ [])
    (hkeys : ∀ t ∈ rest, keyCols t = keyCols df0) :
    ∃ out : Table, average_csv_files (df0 :: rest) = .ok out ∧
      keyCols out = keyCols df0 ∧
      out.length = df0.length ∧
      (∀ p, p < df0.length →
        (valueCol out).getD p 0 =
          ((roundHalfEven ((((df0 :: rest).map (fun t => (valueCol t).getD p 0)).sum) /
            (((df0 :: rest).length : ℕ) : ℚ)) : ℤ) : ℚ)) ∧
      (∀ q : ℚ, |((roundHalfEven q : ℤ) : ℚ) - q| ≤ 1/2) := by
  have hlen : ∀ t ∈ df0 :: rest, t.length = df0.length := by
    intro t ht
    rcases List.mem_cons.1 ht with h | h
    · rw [h]
    · have := hkeys t h
      have := congrArg List.length this
      rwa [length_keyCols, length_keyCols] at this
  have hcols : ∀ c ∈ (df0 :: rest).map valueCol, c.length = df0.length := by
    intro c hc
    rcases List.mem_map.1 hc with ⟨t, ht, rfl⟩
    rw [length_valueCol]
    exact hlen t ht
  have hcne : (df0 :: rest).map valueCol ≠ [] := by simp
  have hsum_len : (sumCols ((df0 :: rest).map valueCol)).length = df0.length :=
    sumCols_length _ _ hcols hcne
  set n : ℚ := (((df0 :: rest).length : ℕ) : ℚ) with hn
  set avg := (sumCols ((df0 :: rest).map valueCol)).map (fun s => s / n) with havg
  have havg_len : avg.length = df0.length := by
    rw [havg, List.length_map, hsum_len]
  refine ⟨List.zipWith outRow df0 avg, average_ok_of_keys df0 rest hne hkeys, ?_, ?_, ?_, ?_⟩
  · exact keyCols_zipWith_outRow df0 avg (le_of_eq havg_len.symm)
  · rw [List.length_zipWith, havg_len, min_self]
  · intro p hp
    rw [valueCol_zipWith_outRow df0 avg (le_of_eq havg_len),
      getD_map_of_lt _ avg p (havg_len ▸ hp) 0,
      havg, getD_map_of_lt _ _ p (hsum_len ▸ hp) 0,
      sumCols_getD _ df0.length p hcols hcne hp, List.map_map]
    rfl
  · exact roundHalfEven_nearest

/-- Witness for C4: the spec's rounding-law test — values `100, 110, 90`
average to exactly `100`. -/
theorem claim4_mean_rounded_output_witness :
    ∃ out : Table, average_csv_files (wTable :: wRest) = .ok out ∧
      keyCols out = keyCols wTable ∧
      out.length = wTable.length ∧
      (∀ p, p < wTable.length →
        (valueCol out).getD p 0 =
          ((roundHalfEven ((((wTable :: wRest).map (fun t => (valueCol t).getD p 0)).sum) /
            (((wTable :: wRest).length : ℕ) : ℚ)) : ℤ) : ℚ)) ∧
      (∀ q : ℚ, |((roundHalfEven q : ℤ) : ℚ) - q| ≤ 1/2) :=
  claim4_mean_rounded_output wTable wRest (by simp [wRest]) (by simp [wTable, wRest, keyCols])

/-- **C10.** With `N > 1` inputs, if some later table has a different row
count than table 1, the key-column check cannot succeed (key columns of
different lengths are unequal), so the run fails with the schema-mismatch
error naming the first disagreeing file index (which is at most that
table's index), and no output is produced. -/
theorem claim10_row_count_mismatch_rejected (d : Table) (rest : List Table) (k : ℕ)
    (hk : k < rest.length) (hlen : (rest.getD k []).length ≠ d.length) :
    ∃ j, j ≤ k ∧ average_csv_files (d :: rest) = .error (j + 2) ∧
      keyCols (rest.getD j []) ≠ keyCols d ∧
      (∀ m, m < j → keyCols (rest.getD m []) = keyCols d) ∧
      (∀ out : Table, average_csv_files (d :: rest) ≠ .ok out) := by
  classical
  have hPk : keyCols (rest.getD k []) ≠ keyCols d := by
    intro h
    exact hlen (by rw [← length_keyCols, h, length_keyCols])
  have hex : ∃ m, keyCols (rest.getD m []) ≠ keyCols d := ⟨k, hPk⟩
  set j := Nat.find hex with hj
  have hjk : j ≤ k := Nat.find_min' hex hPk
  have hPj : keyCols (rest.getD j []) ≠ keyCols d := Nat.find_spec hex
  have hgood : ∀ m, m < j → keyCols (rest.getD m []) = keyCols d := by
    intro m hm
    by_contra hc
    exact Nat.find_min hex hm hc
  have herr := average_error_of_first_bad d rest j (lt_of_le_of_lt hjk hk) hPj hgood
  exact ⟨j, hjk, herr, hPj, hgood,
    fun out hout => by rw [herr] at hout; exact Except.noConfusion hout⟩

/-- Witness for C10: a second table with an extra row is rejected with the
error naming file 2. -/
theorem claim10_row_count_mismatch_rejected_witness :
    ∃ j, j ≤ 0 ∧
      average_csv_files [[("a", (0 : ℚ), (1 : ℚ))], [("a", 0, 1), ("a", 1, 2)]] = .error (j + 2) ∧
      keyCols ([[("a", (0 : ℚ), (1 : ℚ)), ("a", 1, 2)]].getD j []) ≠ keyCols [("a", (0 : ℚ), (1 : ℚ))] ∧
      (∀ m, m < j → keyCols ([[("a", (0 : ℚ), (1 : ℚ)), ("a", 1, 2)]].getD m []) =
        keyCols [("a", (0 : ℚ), (1 : ℚ))]) ∧
      (∀ out : Table,
        average_csv_files [[("a", (0 : ℚ), (1 : ℚ))], [("a", 0, 1), ("a", 1, 2)]] ≠ .ok out) :=
  claim10_row_count_mismatch_rejected [("a", (0 : ℚ), (1 : ℚ))]
    [[("a", 0, 1), ("a", 1, 2)]] 0 (by simp) (by simp)

/-! ### Permutation invariance of the averaging step -/

theorem zipWith_outRow_eq_keys (d : Table) (avg : List ℚ) :
    List.zipWith outRow d avg =
      List.zipWith (fun (k : String × ℚ) v => (k.1, k.2, ((roundHalfEven v : ℤ) : ℚ)))
        (keyCols d) avg := by
  rw [keyCols, List.zipWith_map_left]
  rfl

theorem sumCols_perm (cols cols' : List (List ℚ)) (L : ℕ)
    (h : ∀ c ∈ cols, c.length = L) (hperm : cols.Perm cols') (hne : cols ≠ []) :
    sumCols cols = sumCols cols' := by
  have h' : ∀ c ∈ cols', c.length = L := fun c hc => h c (hperm.mem_iff.2 hc)
  have hne' : cols' ≠ [] := by
    intro e
    rw [e] at hperm
    exact hne hperm.eq_nil
  apply List.ext_getElem
  · rw [sumCols_length cols L h hne, sumCols_length cols' L h' hne']
  · intro i h1 h2
    rw [← List.getD_eq_getElem _ 0 h1, ← List.getD_eq_getElem _ 0 h2]
    have hi : i < L := by rwa [sumCols_length cols L h hne] at h1
    rw [sumCols_getD cols L i h hne hi, sumCols_getD cols' L i h' hne' hi]
    exact List.Perm.sum_eq (hperm.map _)

/-- **C5.** For `N > 1` tables sharing identical key columns `K`, the
aggregator's result is invariant under permuting the list of tables (while
keeping the rows inside each table in place). -/
theorem claim5_table_list_permutation_invariant (l l' : List Table)
    (K : List (String × ℚ)) (h2 : 2 ≤ l.length) (hperm : l.Perm l')
    (hkeys : ∀ t ∈ l, keyCols t = K) :
    average_csv_files l = average_csv_files l' := by
  cases l with
  | nil => simp at h2
  | cons d rest =>
  cases l' with
  | nil => exact absurd hperm.eq_nil (by simp)
  | cons d' rest' =>
  have hne : rest ≠ [] := by
    intro e
    rw [e] at h2
    simp at h2
  have hne' : rest' ≠ [] := by
    intro e
    subst e
    have hlen := hperm.length_eq
    simp only [List.length_cons, List.length_nil] at hlen h2
    omega
  have hd : keyCols d = K := hkeys d (List.mem_cons_self _ _)
  have hd' : keyCols d' = K := hkeys d' (hperm.mem_iff.2 (List.mem_cons_self _ _))
  have hrest : ∀ t ∈ rest, keyCols t = keyCols d := fun t ht =>
    (hkeys t (List.mem_cons_of_mem d ht)).trans hd.symm
  have hrest' : ∀ t ∈ rest', keyCols t = keyCols d' := fun t ht =>
    (hkeys t (hperm.mem_iff.2 (List.mem_cons_of_mem d' ht))).trans hd'.symm
  rw [average_ok_of_keys d rest hne hrest, average_ok_of_keys d' rest' hne' hrest',
    zipWith_outRow_eq_keys, zipWith_outRow_eq_keys, hd, hd']
  have hlenK : ∀ t ∈ d :: rest, t.length = K.length := by
    intro t ht
    have := congrArg List.length (hkeys t ht)
    rwa [length_keyCols] at this
  have hcols : ∀ c ∈ (d :: rest).map valueCol, c.length = K.length := by
    intro c hc
    rcases List.mem_map.1 hc with ⟨t, ht, rfl⟩
    rw [length_valueCol]
    exact hlenK t ht
  have hsum : sumCols ((d :: rest).map valueCol) = sumCols ((d' :: rest').map valueCol) :=
    sumCols_perm _ _ K.length hcols (hperm.map valueCol) (by simp)
  rw [hsum, hperm.length_eq]

/-- Witness for C5: swapping a two-table list leaves the output unchanged. -/
theorem claim5_table_list_permutation_invariant_witness :
    average_csv_files [[("a", (0 : ℚ), (100 : ℚ))], [("a", 0, 110)]] =
      average_csv_files [[("a", (0 : ℚ), (110 : ℚ))], [("a", 0, 100)]] :=
  claim5_table_list_permutation_invariant
    [[("a", (0 : ℚ), (100 : ℚ))], [("a", 0, 110)]]
    [[("a", (0 : ℚ), (110 : ℚ))], [("a", 0, 100)]]
    [("a", 0)] (by simp) (List.Perm.swap _ _ _) (by simp [keyCols])

/-- **C2 counterexample.** The claim says a mean with fractional part one
half is rounded half away from zero, so that averaging values `100` and
`101` yields `101`.  The code rounds with numpy's `round`, which rounds
half to even: averaging `100` and `101` yields `100`, not `101`. -/
theorem claim2_counterexample :
    average_csv_files [[("n", (0 : ℚ), (100 : ℚ))], [("n", 0, 101)]] = .ok [("n", 0, 100)] ∧
      average_csv_files [[("n", (0 : ℚ), (100 : ℚ))], [("n", 0, 101)]] ≠ .ok [("n", 0, 101)] := by
  have h : average_csv_files [[("n", (0 : ℚ), (100 : ℚ))], [("n", 0, 101)]] =
      .ok [("n", 0, 100)] := by
    simp only [average_csv_files, firstMismatch, keyCols, valueCol, sumCols, addSeries,
      roundHalfEven, ratFloor_eq_floor, List.map, List.foldl, List.zipWith, List.length]
    norm_num
  refine ⟨h, ?_⟩
  rw [h]
  intro hc
  simp only [Except.ok.injEq, List.cons.injEq, Prod.mk.injEq] at hc
  norm_num at hc

/-- **C2 (amended).** When the mean has fractional part exactly one half,
the aggregator rounds half to even (numpy's default `round` behaviour)
before the integer cast; in particular averaging two tables with values
`100` and `101` at the same row yields `100`. -/
theorem claim2_amended_ties_round_to_even :
    (∀ k : ℤ, roundHalfEven ((k : ℚ) + 1/2) = if k % 2 = 0 then k else k + 1) ∧
      average_csv_files [[("n", (0 : ℚ), (100 : ℚ))], [("n", 0, 101)]] = .ok [("n", 0, 100)] := by
  refine ⟨roundHalfEven_half_tie, ?_⟩
  simp only [average_csv_files, firstMismatch, keyCols, valueCol, sumCols, addSeries,
    roundHalfEven, ratFloor_eq_floor, List.map, List.foldl, List.zipWith, List.length]
  norm_num

/-! ### The normalizer: minimum timestamp -/

theorem foldl_min_le_init (l : List ℚ) (a : ℚ) : l.foldl min a ≤ a := by
  induction l generalizing a with
  | nil => exact le_refl a
  | cons b t ih =>
    simp only [List.foldl_cons]
    exact le_trans (ih (min a b)) (min_le_left a b)

theorem foldl_min_le_mem (l : List ℚ) (a x : ℚ) (hx : x ∈ l) : l.foldl min a ≤ x := by
  induction l generalizing a with
  | nil => cases hx
  | cons b t ih =>
    simp only [List.foldl_cons]
    rcases List.mem_cons.1 hx with rfl | hx
    · exact le_trans (foldl_min_le_init t (min a x)) (min_le_right a x)
    · exact ih (min a b) hx

theorem foldl_min_eq_init_or_mem (l : List ℚ) (a : ℚ) :
    l.foldl min a = a ∨ l.foldl min a ∈ l := by
  induction l generalizing a with
  | nil => exact Or.inl rfl
  | cons b t ih =>
    simp only [List.foldl_cons]
    rcases ih (min a b) with h | h
    · rcases min_choice a b with hm | hm
      · exact Or.inl (h.trans hm)
      · exact Or.inr (List.mem_cons.2 (Or.inl (h.trans hm)))
    · exact Or.inr (List.mem_cons.2 (Or.inr h))

theorem minTs_le (df : RawTable) (r : String × ℚ × Option ℚ) (hr : r ∈ df) :
    minTs df ≤ r.2.1 := by
  cases df with
  | nil => cases hr
  | cons r0 rs =>
    simp only [minTs]
    rcases List.mem_cons.1 hr with rfl | hr
    · exact foldl_min_le_init _ _
    · exact foldl_min_le_mem _ _ _ (List.mem_map_of_mem _ hr)

theorem minTs_mem (df : RawTable) (hne : df ≠ []) :
    minTs df ∈ df.map (fun r => r.2.1) := by
  cases df with
  | nil => exact absurd rfl hne
  | cons r0 rs =>
    simp only [minTs, List.map_cons]
    rcases foldl_min_eq_init_or_mem (rs.map (fun x => x.2.1)) r0.2.1 with h | h
    · rw [h]
      exact List.mem_cons_self _ _
    · exact List.mem_cons_of_mem _ h

/-! ### The normalizer: closed forms -/

theorem process_throughput_eq (df : RawTable) :
    process_throughput df =
      (df.filter (fun r => r.2.2.isSome)).map
        (fun r => (nodeLabel (firstOccur (df.map (fun x => x.1))) r.1,
          (r.2.1 - minTs df) / 60, truncInt (r.2.2.getD 0))) := by
  unfold process_throughput
  dsimp only
  rw [List.filter_map, List.map_map]
  rfl

theorem process_block_time_eq (df : RawTable) :
    process_block_time df =
      (df.filter (fun r => r.2.2.isSome)).map
        (fun r => (nodeLabel (firstOccur (df.map (fun x => x.1))) r.1,
          (r.2.1 - minTs df) / 60, truncInt (r.2.2.getD 0 * 1000))) := by
  unfold process_block_time
  dsimp only
  rw [List.filter_map, List.map_map]
  rfl

theorem length_filter_isSome_add (df : RawTable) :
    (df.filter (fun r => r.2.2.isSome)).length +
      (df.filter (fun r => r.2.2.isNone)).length = df.length := by
  induction df with
  | nil => rfl
  | cons r t ih =>
    cases hv : r.2.2 with
    | none =>
      simp only [List.filter_cons, hv, Option.isSome_none, Option.isNone_none,
        Bool.false_eq_true, if_false, if_true, List.length_cons]
      omega
    | some v =>
      simp only [List.filter_cons, hv, Option.isSome_some, Option.isNone_some,
        Bool.false_eq_true, if_false, if_true, List.length_cons]
      omega

/-! ### The normalizer: value truncation -/

theorem truncInt_eq_floor_ceil (q : ℚ) :
    truncInt q = if 0 ≤ q then ⌊q⌋ else ⌈q⌉ := by
  by_cases h : 0 ≤ q
  · rw [if_pos h]
    have hnum : 0 ≤ q.num := Rat.num_nonneg.2 h
    rw [truncInt, Int.tdiv_eq_ediv hnum (Int.ofNat_nonneg q.den), Rat.floor_def]
  · rw [if_neg h]
    have hq : q < 0 := lt_of_not_ge h
    have hnum : q.num < 0 := Rat.num_neg.2 hq
    have h1 : truncInt q = -truncInt (-q) := by
      rw [truncInt, truncInt, Rat.neg_num, Rat.neg_den, Int.neg_tdiv, Int.neg_neg]
    have h2 : truncInt (-q) = ⌊-q⌋ := by
      have : (0:ℚ) ≤ -q := by linarith
      rw [truncInt, Int.tdiv_eq_ediv (Rat.num_nonneg.2 this) (Int.ofNat_nonneg (-q).den),
        Rat.floor_def]
    rw [h1, h2, Int.floor_neg, Int.neg_neg]

/-- **C7.** Both normalizer paths replace every retained row's timestamp by
`(raw_timestamp - min_timestamp) / 60`, where `min_timestamp` is the
minimum over all rows of the table (a lower bound attained by some row);
the result is an exact rational with no rounding.  On the spec's example
`[100, 160, 220]` the output timestamps are `[0, 1, 2]`. -/
theorem claim7_timestamp_rebase :
    (∀ df : RawTable, (process_throughput df).map (fun r => r.2.1) =
      (df.filter (fun r => r.2.2.isSome)).map (fun r => (r.2.1 - minTs df) / 60)) ∧
    (∀ df : RawTable, (process_block_time df).map (fun r => r.2.1) =
      (df.filter (fun r => r.2.2.isSome)).map (fun r => (r.2.1 - minTs df) / 60)) ∧
    (∀ df : RawTable, ∀ r ∈ df, minTs df ≤ r.2.1) ∧
    (∀ df : RawTable, df ≠ [] → minTs df ∈ df.map (fun r => r.2.1)) ∧
    (process_throughput [("n", 100, some 5), ("n", 160, some 6), ("n", 220, some 7)]).map
      (fun r => r.2.1) = [0, 1, 2] := by
  have h1 : ∀ df : RawTable, (process_throughput df).map (fun r => r.2.1) =
      (df.filter (fun r => r.2.2.isSome)).map (fun r => (r.2.1 - minTs df) / 60) := by
    intro df
    rw [process_throughput_eq, List.map_map]
    rfl
  have h2 : ∀ df : RawTable, (process_block_time df).map (fun r => r.2.1) =
      (df.filter (fun r => r.2.2.isSome)).map (fun r => (r.2.1 - minTs df) / 60) := by
    intro df
    rw [process_block_time_eq, List.map_map]
    rfl
  refine ⟨h1, h2, minTs_le, minTs_mem, ?_⟩
  rw [h1]
  simp only [minTs, List.filter, Option.isSome_some, List.map_cons, List.map_nil,
    List.foldl_cons, List.foldl_nil]
  norm_num [min_def]

/-- Witness for C7: the inner hypotheses (row membership, non-emptiness)
discharged on a concrete one-row table. -/
theorem claim7_timestamp_rebase_witness :
    minTs [("n", (100 : ℚ), some (5 : ℚ))] ≤ 100 ∧
      minTs [("n", (100 : ℚ), some (5 : ℚ))] ∈
        ([("n", (100 : ℚ), some (5 : ℚ))] : RawTable).map (fun r => r.2.1) :=
  ⟨claim7_timestamp_rebase.2.2.1 [("n", (100 : ℚ), some (5 : ℚ))]
      ("n", (100 : ℚ), some (5 : ℚ)) (List.mem_cons_self _ _),
    claim7_timestamp_rebase.2.2.2.1 [("n", (100 : ℚ), some (5 : ℚ))] (by simp)⟩

/-- **C8.** Both normalizer paths drop exactly the rows whose value cell is
missing and keep the remaining rows in their relative order (the output is
the in-order image of the filtered input); when exactly one value cell is
missing the output has exactly one fewer row than the input.  Every
remaining value is an integer: the output value column has type `ℤ`. -/
theorem claim8_missing_value_drop (df : RawTable)
    (h1 : (df.filter (fun r => r.2.2.isNone)).length = 1) :
    (process_throughput df).length = df.length - 1 ∧
    (process_block_time df).length = df.length - 1 ∧
    process_throughput df =
      (df.filter (fun r => r.2.2.isSome)).map
        (fun r => (nodeLabel (firstOccur (df.map (fun x => x.1))) r.1,
          (r.2.1 - minTs df) / 60, truncInt (r.2.2.getD 0))) ∧
    process_block_time df =
      (df.filter (fun r => r.2.2.isSome)).map
        (fun r => (nodeLabel (firstOccur (df.map (fun x => x.1))) r.1,
          (r.2.1 - minTs df) / 60, truncInt (r.2.2.getD 0 * 1000))) := by
  have hlen := length_filter_isSome_add df
  have hthr : (process_throughput df).length = (df.filter (fun r => r.2.2.isSome)).length := by
    rw [process_throughput_eq, List.length_map]
  have hblk : (process_block_time df).length = (df.filter (fun r => r.2.2.isSome)).length := by
    rw [process_block_time_eq, List.length_map]
  exact ⟨by omega, by omega, process_throughput_eq df, process_block_time_eq df⟩

/-- Witness for C8: a two-row throughput table with one missing value cell
yields a one-row output. -/
theorem claim8_missing_value_drop_witness :
    (process_throughput [("n", 0, some 5), ("n", 60, none)]).length =
      ([("n", (0 : ℚ), some (5 : ℚ)), ("n", 60, none)] : RawTable).length - 1 :=
  (claim8_missing_value_drop [("n", 0, some 5), ("n", 60, none)] (by rfl)).1

/-- **C9.** The value conversion of every retained row truncates toward
zero (drops the fractional part) instead of rounding: `truncInt` agrees
with `⌊·⌋` on nonnegative and `⌈·⌉` on negative arguments, the throughput
path applies it to the raw value directly, and the block-time path applies
it to the value multiplied by 1000. -/
theorem claim9_value_truncation :
    (∀ q : ℚ, truncInt q = if 0 ≤ q then ⌊q⌋ else ⌈q⌉) ∧
    (∀ df : RawTable, (process_throughput df).map (fun r => r.2.2) =
      (df.filter (fun r => r.2.2.isSome)).map (fun r => truncInt (r.2.2.getD 0))) ∧
    (∀ df : RawTable, (process_block_time df).map (fun r => r.2.2) =
      (df.filter (fun r => r.2.2.isSome)).map (fun r => truncInt (r.2.2.getD 0 * 1000))) := by
  refine ⟨truncInt_eq_floor_ceil, ?_, ?_⟩
  · intro df
    rw [process_throughput_eq, List.map_map]
    rfl
  · intro df
    rw [process_block_time_eq, List.map_map]
    rfl

/-! ### Decimal representation: `Nat.repr` facts -/

theorem decChars_small {n : ℕ} (h : n < 10) : decChars n = [Nat.digitChar n] := by
  rw [decChars]
  simp [h]

theorem decChars_large {n : ℕ} (h : ¬ n < 10) :
    decChars n = decChars (n / 10) ++ [Nat.digitChar (n % 10)] := by
  rw [decChars]
  simp [h]

theorem toDigitsCore_eq_decChars :
    ∀ (f n : ℕ) (ds : List Char), n < f →
      Nat.toDigitsCore 10 f n ds = decChars n ++ ds := by
  intro f
  induction f with
  | zero => intro n ds h; omega
  | succ f ih =>
    intro n ds h
    by_cases h10 : n < 10
    · have hdiv : n / 10 = 0 := Nat.div_eq_of_lt h10
      have hmod : n % 10 = n := Nat.mod_eq_of_lt h10
      simp only [Nat.toDigitsCore, hdiv, if_true, hmod]
      rw [decChars_small h10]
      rfl
    · have hdiv : n / 10 ≠ 0 := by
        intro e
        exact h10 (by omega)
      simp only [Nat.toDigitsCore, hdiv, if_false]
      have hlt : n / 10 < f := by
        have := Nat.div_lt_self (by omega : 0 < n) (by omega : 1 < 10)
        omega
      rw [ih (n / 10) (Nat.digitChar (n % 10) :: ds) hlt, decChars_large h10]
      simp

theorem repr_data (n : ℕ) : (Nat.repr n).data = decChars n := by
  rw [Nat.repr, Nat.toDigits, toDigitsCore_eq_decChars (n + 1) n [] (Nat.lt_succ_self n)]
  simp [List.asString]

theorem digitChar_isDigit : ∀ k : ℕ, k < 10 → (Nat.digitChar k).isDigit = true := by
  decide

theorem digitChar_inj_lt : ∀ a : ℕ, a < 10 → ∀ b : ℕ, b < 10 →
    Nat.digitChar a = Nat.digitChar b → a = b := by
  decide

theorem decChars_isDigit (n : ℕ) : ∀ c ∈ decChars n, c.isDigit = true := by
  induction n using Nat.strong_induction_on with
  | _ n ih =>
    by_cases h10 : n < 10
    · rw [decChars_small h10]
      intro c hc
      rw [List.mem_singleton] at hc
      exact hc ▸ digitChar_isDigit n h10
    · rw [decChars_large h10]
      intro c hc
      rcases List.mem_append.1 hc with hc | hc
      · exact ih (n / 10) (Nat.div_lt_self (by omega) (by omega)) c hc
      · rw [List.mem_singleton] at hc
        exact hc ▸ digitChar_isDigit (n % 10) (Nat.mod_lt n (by omega))

theorem space_not_mem_decChars (n : ℕ) : ' ' ∉ decChars n := by
  intro h
  have := decChars_isDigit n ' ' h
  simp [Char.isDigit] at this

theorem decChars_ne_nil (n : ℕ) : decChars n ≠ [] := by
  by_cases h10 : n < 10
  · rw [decChars_small h10]
    simp
  · rw [decChars_large h10]
    simp

theorem decChars_inj : ∀ m n : ℕ, decChars m = decChars n → m = n := by
  intro m
  induction m using Nat.strong_induction_on with
  | _ m ih =>
    intro n h
    by_cases hm : m < 10 <;> by_cases hn : n < 10
    · rw [decChars_small hm, decChars_small hn] at h
      simp only [List.cons.injEq] at h
      exact digitChar_inj_lt m hm n hn h.1
    · rw [decChars_small hm, decChars_large hn] at h
      have hl := congrArg List.length h
      simp only [List.length_singleton, List.length_append] at hl
      have h1 := decChars_ne_nil (n / 10)
      have h2 : 1 ≤ (decChars (n / 10)).length := List.length_pos.2 h1
      omega
    · rw [decChars_large hm, decChars_small hn] at h
      have hl := congrArg List.length h
      simp only [List.length_singleton, List.length_append] at hl
      have h1 := decChars_ne_nil (m / 10)
      have h2 : 1 ≤ (decChars (m / 10)).length := List.length_pos.2 h1
      omega
    · rw [decChars_large hm, decChars_large hn] at h
      have hrev := congrArg List.reverse h
      simp only [List.reverse_append, List.reverse_singleton, List.singleton_append,
        List.cons.injEq] at hrev
      have hdig : m % 10 = n % 10 :=
        digitChar_inj_lt (m % 10) (Nat.mod_lt m (by omega)) (n % 10)
          (Nat.mod_lt n (by omega)) hrev.1
      have hdiv : m / 10 = n / 10 := by
        apply ih (m / 10) (Nat.div_lt_self (by omega) (by omega))
        have := congrArg List.reverse hrev.2
        simpa using this
      omega

theorem split_at_space :
    ∀ (xs ys us vs : List Char), ' ' ∉ xs → ' ' ∉ ys →
      xs ++ ' ' :: us = ys ++ ' ' :: vs → xs = ys ∧ us = vs := by
  intro xs
  induction xs with
  | nil =>
    intro ys us vs _ hy h
    cases ys with
    | nil => simpa using h
    | cons y ys =>
      simp only [List.nil_append, List.cons_append, List.cons.injEq] at h
      exact absurd (h.1 ▸ List.mem_cons_self y ys) (h.1 ▸ hy)
  | cons x xs ih =>
    intro ys us vs hx hy h
    cases ys with
    | nil =>
      simp only [List.nil_append, List.cons_append, List.cons.injEq] at h
      exact absurd (h.1 ▸ List.mem_cons_self x xs) (fun hm => hx (h.1 ▸ hm))
    | cons y ys =>
      simp only [List.cons_append, List.cons.injEq] at h
      have hx' : ' ' ∉ xs := fun hm => hx (List.mem_cons_of_mem x hm)
      have hy' : ' ' ∉ ys := fun hm => hy (List.mem_cons_of_mem y hm)
      obtain ⟨h1, h2⟩ := ih ys us vs hx' hy' h.2
      exact ⟨by rw [h.1, h1], h2⟩

theorem repr_no_space (n : ℕ) : ' ' ∉ (Nat.repr n).data := by
  rw [repr_data]
  exact space_not_mem_decChars n

theorem label_index_inj (a b : String) (m n : ℕ)
    (h : "Node" ++ Nat.repr m ++ " (" ++ a ++ ")" = "Node" ++ Nat.repr n ++ " (" ++ b ++ ")") :
    m = n := by
  have hdata := congrArg String.data h
  simp only [String.data_append, List.append_assoc] at hdata
  have hcancel := List.append_cancel_left hdata
  simp only [List.cons_append, List.nil_append] at hcancel
  have hs := split_at_space (Nat.repr m).data (Nat.repr n).data _ _
    (repr_no_space m) (repr_no_space n) hcancel
  apply decChars_inj
  rw [← repr_data, ← repr_data, hs.1]

/-! ### First-occurrence enumeration -/

theorem firstOccur_nil : firstOccur [] = [] := by
  rw [firstOccur]

theorem firstOccur_cons (x : String) (xs : List String) :
    firstOccur (x :: xs) = x :: firstOccur (xs.filter (fun y => y ≠ x)) := by
  rw [firstOccur]

theorem mem_firstOccur : ∀ (l : List String) (x : String), x ∈ firstOccur l ↔ x ∈ l := by
  intro l
  induction l using firstOccur.induct with
  | case1 => simp [firstOccur_nil]
  | case2 a xs ih =>
    intro x
    rw [firstOccur_cons]
    by_cases hax : x = a
    · subst hax
      simp
    · simp only [List.mem_cons, ih x, List.mem_filter, decide_eq_true_eq]
      constructor
      · rintro (rfl | ⟨hmem, _⟩)
        · exact Or.inl rfl
        · exact Or.inr hmem
      · rintro (rfl | hmem)
        · exact Or.inl rfl
        · exact Or.inr ⟨hmem, hax⟩

theorem takeWhile_filter_comm {α : Type} (p q : α → Bool)
    (h : ∀ b, q b = false → p b = true) :
    ∀ l : List α, (l.filter q).takeWhile p = (l.takeWhile p).filter q := by
  intro l
  induction l with
  | nil => rfl
  | cons c t ih =>
    cases hq : q c
    · have hp : p c = true := h c hq
      simp only [List.filter_cons, hq, if_false, List.takeWhile_cons, hp, if_true, ih,
        Bool.false_eq_true]
    · cases hp : p c
      · simp only [List.filter_cons, hq, if_true, List.takeWhile_cons, hp,
          Bool.false_eq_true, if_false, List.filter_nil]
      · simp only [List.filter_cons, hq, if_true, List.takeWhile_cons, hp, ih]

theorem indexOf_firstOccur : ∀ (l : List String) (x : String), x ∈ l →
    (firstOccur l).indexOf x = (firstOccur (l.takeWhile (fun y => y ≠ x))).length := by
  intro l
  induction l using firstOccur.induct with
  | case1 => intro x hx; cases hx
  | case2 a t ih =>
    intro x hx
    by_cases hax : a = x
    · subst hax
      rw [firstOccur_cons, List.indexOf_cons_self]
      rw [List.takeWhile_cons]
      simp [firstOccur_nil]
    · have hxt : x ∈ t := by
        rcases List.mem_cons.1 hx with rfl | hm
        · exact absurd rfl hax
        · exact hm
      have hxf : x ∈ t.filter (fun y => y ≠ a) := by
        rw [List.mem_filter]
        exact ⟨hxt, by simp [Ne.symm hax]⟩
      rw [firstOccur_cons, List.indexOf_cons_ne _ hax, ih x hxf]
      have hcomm : ((t.filter (fun y => y ≠ a)).takeWhile (fun y => y ≠ x)) =
          ((t.takeWhile (fun y => y ≠ x)).filter (fun y => y ≠ a)) := by
        apply takeWhile_filter_comm
        intro b hb
        simp only [decide_eq_false_iff_not, not_not] at hb
        subst hb
        simp [hax]
      rw [hcomm]
      have htw : (a :: t).takeWhile (fun y => y ≠ x) =
          a :: t.takeWhile (fun y => y ≠ x) := by
        rw [List.takeWhile_cons]
        simp [hax]
      rw [htw, firstOccur_cons]
      simp [Nat.succ_eq_add_one, Nat.add_comm]

/-- **C6.** `normalize_node_names` maps every raw identifier in column 0 to
the canonical label `Node{idx+1} ({prefix})`, where `idx` is the
identifier's position in the first-occurrence enumeration of the column
(equal to the number of distinct identifiers occurring strictly before its
first occurrence) and `{prefix}` is the part of the identifier before its
first hyphen; within one call the assignment is a bijection between the
identifiers present and their labels: equal identifiers get equal labels
and distinct identifiers get distinct labels (the decimal index embedded
in the label determines the identifier).  On `["beta-1", "alpha-2",
"beta-1"]` the output is `["Node1 (beta)", "Node2 (alpha)", "Node1
(beta)"]`. -/
theorem claim6_node_mapping :
    (∀ col : List String,
      normalize_node_names col = col.map (nodeLabel (firstOccur col))) ∧
    (∀ col : List String, ∀ name : String,
      nodeLabel (firstOccur col) name =
        "Node" ++ Nat.repr ((firstOccur col).indexOf name + 1) ++ " (" ++
          hyphenHead name ++ ")") ∧
    (∀ col : List String, ∀ x ∈ col, ∀ y ∈ col,
      (nodeLabel (firstOccur col) x = nodeLabel (firstOccur col) y ↔ x = y)) ∧
    (∀ col : List String, ∀ x ∈ col,
      (firstOccur col).indexOf x =
        (firstOccur (col.takeWhile (fun y => y ≠ x))).length) ∧
    (normalize_node_names ["beta-1", "alpha-2", "beta-1"] =
      ["Node1 (beta)", "Node2 (alpha)", "Node1 (beta)"]) := by
  refine ⟨fun col => rfl, fun col name => rfl, ?_, indexOf_firstOccur, ?_⟩
  · intro col x hx y hy
    constructor
    · intro h
      have hidx : (firstOccur col).indexOf x + 1 = (firstOccur col).indexOf y + 1 :=
        label_index_inj (hyphenHead x) (hyphenHead y) _ _ h
      have hx' : x ∈ firstOccur col := (mem_firstOccur col x).2 hx
      have hy' : y ∈ firstOccur col := (mem_firstOccur col y).2 hy
      exact (List.indexOf_inj hx' hy').1 (by omega)
    · intro h
      rw [h]
  · have h1 : firstOccur ["beta-1", "alpha-2", "beta-1"] = ["beta-1", "alpha-2"] := by
      rw [firstOccur_cons]
      have hf : (["alpha-2", "beta-1"].filter (fun y => y ≠ "beta-1")) = ["alpha-2"] := by
        decide
      rw [hf, firstOccur_cons]
      have hf2 : (([] : List String).filter (fun y => y ≠ "alpha-2")) = [] := by
        decide
      rw [hf2, firstOccur_nil]
    show List.map (nodeLabel (firstOccur ["beta-1", "alpha-2", "beta-1"]))
        ["beta-1", "alpha-2", "beta-1"] = _
    rw [h1]
    decide

/-- Witness for C6: the bijection and first-occurrence-order statements
instantiated on the concrete column `["a-1", "b-2"]`. -/
theorem claim6_node_mapping_witness :
    (nodeLabel (firstOccur ["a-1", "b-2"]) "a-1" =
        nodeLabel (firstOccur ["a-1", "b-2"]) "b-2" ↔ ("a-1" : String) = "b-2") ∧
    (firstOccur ["a-1", "b-2"]).indexOf "a-1" =
      (firstOccur (["a-1", "b-2"].takeWhile (fun y => y ≠ "a-1"))).length :=
  ⟨claim6_node_mapping.2.2.1 ["a-1", "b-2"] "a-1" (by simp) "b-2" (by simp),
   claim6_node_mapping.2.2.2.1 ["a-1", "b-2"] "a-1" (by simp)⟩

end Malachite
